import Mathlib

/-!
Verification of the TransColors text-processing and vector-store core.

The Python sources are embedded shallowly:
* strings are `List Char`; regular-expression operations of
  `text_processor.py` are translated into structural recursions with the
  same input/output behaviour (whitespace collapse, character filtering,
  sentence splitting at whitespace runs preceded by a sentence delimiter);
* Python dicts (which preserve insertion order and update keys in place)
  are ordered association lists;
* the floating-point cosine similarity of `vector_store.py` is abstracted
  into a score function parameter `sim`; every theorem about `search`
  is proved for an arbitrary `sim`, hence in particular for the cosine
  score the code computes.  Python `sorted(..., key=score, reverse=True)`
  is a stable descending sort, embedded as `List.insertionSort simGE`
  (stable and sorted by `≥`, hence extensionally the same ordering).
-/

/-- Python `\s` on the ASCII range: the whitespace class used by
`re.sub(r"\s+", " ", text)` in `clean_text`. -/
def pyIsSpace (c : Char) : Bool :=
  c == ' ' || c == '\t' || c == '\n' || c == '\r' || c == '\x0b' || c == '\x0c'

/-- Python `\w` (word character): alphanumeric or underscore. -/
def isWordChar (c : Char) : Bool :=
  c.isAlphanum || c == '_'

/-- The character class kept by `re.sub(r"[^\w\s.,;:!?()-]", "", text)`:
word characters, whitespace, and the punctuation allow-list. -/
def allowedChar (c : Char) : Bool :=
  isWordChar c || pyIsSpace c || c == '.' || c == ',' || c == ';' || c == ':' ||
    c == '!' || c == '?' || c == '(' || c == ')' || c == '-'

/-- `re.sub(r"\s+", " ", text)`: every maximal run of whitespace becomes a
single space.  (The single space is emitted at the last character of the
run, which yields the same output.) -/
def collapseWs : List Char → List Char
  | [] => []
  | [c] => if pyIsSpace c then [' '] else [c]
  | c :: d :: cs =>
    if pyIsSpace c then
      (if pyIsSpace d then collapseWs (d :: cs) else ' ' :: collapseWs (d :: cs))
    else c :: collapseWs (d :: cs)

/-- Python `str.strip()`: drop whitespace from both ends. -/
def stripChars (l : List Char) : List Char :=
  ((l.dropWhile pyIsSpace).reverse.dropWhile pyIsSpace).reverse

namespace TextProcessor

/-- `TextProcessor.clean_text`: collapse whitespace runs, remove characters
outside the allow-list, strip the ends; empty input maps to empty. -/
def clean_text (text : List Char) : List Char :=
  if text = [] then [] else stripChars (List.filter allowedChar (collapseWs text))

/-- Is the previous character (head of the reversed accumulator) a sentence
delimiter `.`, `!` or `?` — the lookbehind of `re.split(r"(?<=[.!?])\s+", text)`. -/
def isDelimPrev (acc : List Char) : Bool :=
  match acc.head? with
  | some p => p == '.' || p == '!' || p == '?'
  | none => false

/-- Worker for `re.split(r"(?<=[.!?])\s+", text)`.  `acc` is the current
sentence reversed; the `Bool` records that we are inside the whitespace run
of a delimiter match (those characters are consumed, not emitted). -/
def sentAux : Bool → List Char → List Char → List (List Char)
  | _, [], acc => [acc.reverse]
  | skip, c :: cs, acc =>
    if skip && pyIsSpace c then sentAux true cs acc
    else if pyIsSpace c && isDelimPrev acc then acc.reverse :: sentAux true cs []
    else sentAux false cs (c :: acc)

/-- `re.split(r"(?<=[.!?])\s+", text)`: split at maximal whitespace runs
whose preceding character is `.`, `!` or `?`. -/
def sentSplit (text : List Char) : List (List Char) :=
  sentAux false text []

/-- Python `" ".join(current_chunk)`. -/
def joinSp : List (List Char) → List Char
  | [] => []
  | [s] => s
  | s :: rest => s ++ ' ' :: joinSp rest

/-- The sentence-accumulation loop of `TextProcessor.split_text`:
greedily accumulate sentences; when adding the next sentence would push the
accumulated character count past `chunk_size` and the accumulation is
non-empty, close the chunk (joined with single spaces, retained only when
its length is at least `min_length`) and restart from that sentence; the
final accumulation is closed the same way. -/
def splitLoop (min_length chunk_size : ℕ) :
    List (List Char) → List (List Char) → List (List Char) → ℕ → List (List Char)
  | [], cur, chunks, _ =>
    if cur ≠ [] then
      (if min_length ≤ (joinSp cur).length then chunks ++ [joinSp cur] else chunks)
    else chunks
  | s :: rest, cur, chunks, curLen =>
    if chunk_size < curLen + s.length ∧ cur ≠ [] then
      splitLoop min_length chunk_size rest [s]
        (if min_length ≤ (joinSp cur).length then chunks ++ [joinSp cur] else chunks)
        s.length
    else splitLoop min_length chunk_size rest (cur ++ [s]) chunks (curLen + s.length)

/-- `TextProcessor.split_text`: clean the text, split into sentences, and
run the accumulation loop.  `overlap` is accepted (as in the source) but
never read. -/
def split_text (min_length : ℕ) (text : List Char) (chunk_size : ℕ)
    (overlap : ℕ) : List (List Char) :=
  if text = [] then []
  else splitLoop min_length chunk_size (sentSplit (clean_text text)) [] [] 0

end TextProcessor

/-! ## Ordered association lists: the embedding of Python dicts -/

/-- Python `d[k] = v`: update in place when the key is present (Python dicts
keep the key at its original position), append otherwise. -/
def dictSet (l : List (String × α)) (k : String) (v : α) : List (String × α) :=
  if l.any (fun p => p.1 = k) then
    l.map (fun p => if p.1 = k then (k, v) else p)
  else l ++ [(k, v)]

/-- Python `del d[k]` (for `k` present) / removal of a key. -/
def dictDel (l : List (String × α)) (k : String) : List (String × α) :=
  l.filter (fun p => p.1 ≠ k)

/-- Python `d.get(k)` / `d[k]` as an optional lookup. -/
def dictGet? (l : List (String × α)) (k : String) : Option α :=
  (l.find? (fun p => p.1 = k)).map (fun p => p.2)

/-- The keys, in dict order. -/
def dictKeys (l : List (String × α)) : List String :=
  l.map (fun p => p.1)

/-! ## VectorStore -/

/-- Vectors: ordered sequences of (exactly represented) scalars. -/
abbrev Vec : Type := List ℚ

/-- Metadata mappings (`Dict[str, Any]` with scalar values). -/
abbrev MetaMap : Type := List (String × String)

/-- The in-memory state of `VectorStore`: the two dicts `self.vectors` and
`self.metadata` (the chromadb collection and embedding model are external
collaborators and carry no state the claims mention). -/
structure VectorStore where
  vectors : List (String × Vec)
  metadata : List (String × MetaMap)
deriving DecidableEq

/-- `VectorStore.add`: unconditional upsert of both dicts.  Python
`metadata or {}` turns a missing (`None`) metadata argument into the empty
mapping. -/
def VectorStore.add (s : VectorStore) (id : String) (vector : Vec)
    (metadata : Option MetaMap) : VectorStore :=
  { vectors := dictSet s.vectors id vector,
    metadata := dictSet s.metadata id (metadata.getD []) }

/-- `VectorStore.get`: `None` when absent, else the vector together with
the metadata lookup (whose failure would be a `KeyError` in Python and is
kept as an inner `Option`). -/
def VectorStore.get (s : VectorStore) (id : String) : Option (Vec × Option MetaMap) :=
  (dictGet? s.vectors id).map (fun v => (v, dictGet? s.metadata id))

/-- `VectorStore.delete`: remove the id from both dicts when present and
report `true`, otherwise leave the state alone and report `false`. -/
def VectorStore.delete (s : VectorStore) (id : String) : VectorStore × Bool :=
  if s.vectors.any (fun p => p.1 = id) then
    ({ vectors := dictDel s.vectors id, metadata := dictDel s.metadata id }, true)
  else (s, false)

/-- `VectorStore.clear`: empty both dicts. -/
def VectorStore.clear (s : VectorStore) : VectorStore :=
  { vectors := [], metadata := [] }

/-- One element of the list returned by `search`. -/
structure SearchResult where
  id : String
  similarity : ℚ
  vector : Vec
  metadata : MetaMap
deriving DecidableEq

/-- The ordering used by `sorted(similarities.items(), key=lambda x: x[1],
reverse=True)`: descending similarity. -/
def simGE (a b : String × ℚ) : Prop := b.2 ≤ a.2

instance : DecidableRel simGE := fun a b => inferInstanceAs (Decidable (b.2 ≤ a.2))

instance : IsTotal (String × ℚ) simGE := ⟨fun a b => le_total b.2 a.2⟩

instance : IsTrans (String × ℚ) simGE := ⟨fun _ _ _ h h2 => le_trans h2 h⟩

/-- The `similarities` dict of `search`: one score per stored record, in
dict (insertion) order.  `sim` abstracts the floating-point cosine
similarity `dot(q,v)/(‖q‖·‖v‖)` the source computes. -/
def scored (sim : Vec → Vec → ℚ) (s : VectorStore) (query_vector : Vec) :
    List (String × ℚ) :=
  s.vectors.map (fun p => (p.1, sim query_vector p.2))

/-- `VectorStore.search`: empty index yields `[]`; otherwise score every
record, sort by similarity descending (stably — Python's `sorted`), take
the first `top_k`, and return each with its id, score, vector and
metadata. -/
def VectorStore.search (sim : Vec → Vec → ℚ) (s : VectorStore)
    (query_vector : Vec) (top_k : ℕ) : List SearchResult :=
  if s.vectors = [] then []
  else
    ((List.insertionSort simGE (scored sim s query_vector)).take top_k).map
      (fun p =>
        { id := p.1, similarity := p.2,
          vector := (dictGet? s.vectors p.1).getD [],
          metadata := (dictGet? s.metadata p.1).getD [] })

/-- `search` as a state transformer: the method body only reads
`self.vectors` and `self.metadata`, so the outgoing state is rebuilt from
the incoming fields unchanged. -/
def VectorStore.searchM (sim : Vec → Vec → ℚ) (s : VectorStore)
    (query_vector : Vec) (top_k : ℕ) : VectorStore × List SearchResult :=
  (⟨s.vectors, s.metadata⟩, VectorStore.search sim s query_vector top_k)

/-- `get` as a state transformer; the body performs reads only. -/
def VectorStore.getM (s : VectorStore) (id : String) :
    VectorStore × Option (Vec × Option MetaMap) :=
  (⟨s.vectors, s.metadata⟩, VectorStore.get s id)

/-- The states reachable from an empty `VectorStore` by `add`, `delete`
and `clear`. -/
inductive Reachable : VectorStore → Prop
  | empty : Reachable ⟨[], []⟩
  | add (s : VectorStore) (id : String) (v : Vec) (m : Option MetaMap) :
      Reachable s → Reachable (VectorStore.add s id v m)
  | delete (s : VectorStore) (id : String) :
      Reachable s → Reachable (VectorStore.delete s id).1
  | clear (s : VectorStore) : Reachable s → Reachable (VectorStore.clear s)

/-- Python dict equality (`==`): same keys with the same values, order
ignored — the "identical by content" of the spec. -/
def contentEq (s t : VectorStore) : Prop :=
  (∀ k, dictGet? s.vectors k = dictGet? t.vectors k) ∧
    (∀ k, dictGet? s.metadata k = dictGet? t.metadata k)

/-! ## Config -/

/-- A YAML configuration value: scalar or nested mapping. -/
inductive YamlVal where
  | s : String → YamlVal
  | n : Int → YamlVal
  | dict : List (String × YamlVal) → YamlVal

namespace Config

/-- `Config.get` as written in `config.py`: a flat lookup of the literal
`key` in the top-level dict, `self.config.get(key, default)`.  `none`
plays Python `None`, the default `default`. -/
def get (config : List (String × YamlVal)) (key : String)
    (default : Option YamlVal) : Option YamlVal :=
  match dictGet? config key with
  | some v => some v
  | none => default

/-- Split a key at the dots. -/
def splitDotsAux : List Char → List Char → List (List Char)
  | [], acc => [acc.reverse]
  | c :: cs, acc =>
    if c = '.' then acc.reverse :: splitDotsAux cs []
    else splitDotsAux cs (c :: acc)

/-- Walk a dotted path into nested mappings. -/
def resolvePath : YamlVal → List String → Option YamlVal
  | v, [] => some v
  | YamlVal.dict d, p :: ps =>
    match dictGet? d p with
    | some v => resolvePath v ps
    | none => none
  | _, _ :: _ => none

/-- Modelled from the spec: the configuration source "exposes
`get(key, default) → value` for dotted keys (e.g.
`vector_db.collection_name`); absence of a key yields the supplied
default, never an error" — each dot descends one level of the nested
configuration.  This is what the callers in `vector_store.py` rely on;
the flat `Config.get` above is what `config.py` implements. -/
def specGet (config : List (String × YamlVal)) (key : String)
    (default : Option YamlVal) : Option YamlVal :=
  match resolvePath (YamlVal.dict config) ((splitDotsAux key.toList []).map
      (fun l => String.mk l)) with
  | some v => some v
  | none => default

end Config

/-! ## Concrete inputs used by witnesses and counterexamples -/

def idA : String := "a"

def idB : String := "b"

/-- A store already holding a record under `idA`. -/
def s7cex : VectorStore := ⟨[(idA, [1])], [(idA, [])]⟩

/-- A store holding a record under `idB` only. -/
def s7wit : VectorStore := ⟨[(idB, [1])], [(idB, [])]⟩

def dottedKey : String := "vector_db.collection_name"

def collectionVal : String := "trans_colors"

def cfg9 : List (String × YamlVal) :=
  [("vector_db", YamlVal.dict [("collection_name", YamlVal.s collectionVal)])]

/-- The C5 counterexample text, Python `"a @ b"`. -/
def cex5 : List Char := [ 'a', ' ', '@', ' ', 'b']

/-- Witness text whose sentences are `ab.` and `cd.`. -/
def wit1 : List Char := [ 'a', 'b', '.', ' ', 'c', 'd', '.']

/-- Witness text whose sentences are `abcd.` (length 5) and `e.`. -/
def wit6 : List Char := [ 'a', 'b', 'c', 'd', '.', ' ', 'e', '.']

/-- The long sentence of `wit6`. -/
def sent6 : List Char := [ 'a', 'b', 'c', 'd', '.']

/-- A store with four records, two of them tied in the test score. -/
def s3wit : VectorStore :=
  ⟨[(idA, [1]), (idB, [2])], [(idA, []), (idB, [])]⟩

/-- A concrete score function for witnesses (any function works; every
search theorem is proved for an arbitrary `sim`). -/
def simWit : Vec → Vec → ℚ := fun _ v => match v with | [x] => x | _ => 0

/-! ## Dict lemmas -/

theorem any_fst_iff_mem (l : List (String × α)) (k : String) :
    l.any (fun p => p.1 = k) = true ↔ k ∈ dictKeys l := by
  simp [List.any_eq_true, dictKeys, List.mem_map]

theorem dictSet_of_not_mem {l : List (String × α)} {k : String} (v : α)
    (h : k ∉ dictKeys l) : dictSet l k v = l ++ [(k, v)] := by
  unfold dictSet
  rw [if_neg]
  intro hc
  exact h ((any_fst_iff_mem l k).1 hc)

theorem not_mem_keys_fst_ne {l : List (String × α)} {k : String}
    (h : k ∉ dictKeys l) : ∀ p ∈ l, p.1 ≠ k := by
  intro p hp he
  apply h
  have : p.1 ∈ dictKeys l := List.mem_map_of_mem (fun q => q.1) hp
  rwa [he] at this

theorem dictDel_append_singleton {l : List (String × α)} {k : String} (v : α)
    (h : k ∉ dictKeys l) : dictDel (l ++ [(k, v)]) k = l := by
  unfold dictDel
  rw [List.filter_append]
  have h1 : l.filter (fun p => decide (p.1 ≠ k)) = l := by
    rw [List.filter_eq_self]
    intro p hp
    simpa using not_mem_keys_fst_ne h p hp
  rw [h1]
  simp

theorem dictKeys_dictSet (l : List (String × α)) (k : String) (v : α) :
    dictKeys (dictSet l k v) =
      if l.any (fun p => p.1 = k) = true then dictKeys l else dictKeys l ++ [k] := by
  unfold dictSet dictKeys
  split
  · rw [List.map_map]
    refine List.map_congr_left ?_
    intro p _
    by_cases hp : p.1 = k
    · simp [Function.comp, hp]
    · simp [Function.comp, hp]
  · simp

theorem dictKeys_dictDel (l : List (String × α)) (k : String) :
    dictKeys (dictDel l k) = (dictKeys l).filter (fun x => x ≠ k) := by
  unfold dictDel dictKeys
  rw [List.filter_map]
  rfl

/-! ## split_text lemmas -/

namespace TextProcessor

/-- Chunks already collected survive the rest of the loop. -/
theorem splitLoop_mono (minl cs : ℕ) :
    ∀ (ss cur chunks : List (List Char)) (n : ℕ) (c : List Char),
      c ∈ chunks → c ∈ splitLoop minl cs ss cur chunks n := by
  intro ss
  induction ss with
  | nil =>
    intro cur chunks n c hc
    simp only [splitLoop]
    split
    · split
      · exact List.mem_append_left _ hc
      · exact hc
    · exact hc
  | cons s rest ih =>
    intro cur chunks n c hc
    simp only [splitLoop]
    split
    · refine ih _ _ _ c ?_
      split
      · exact List.mem_append_left _ hc
      · exact hc
    · exact ih _ _ _ c hc

/-- Once an oversize sentence sits alone in the accumulation, it is
emitted as its own chunk. -/
theorem splitLoop_single (minl cs : ℕ) (s : List Char)
    (hmin : minl ≤ s.length) :
    ∀ (ss chunks : List (List Char)) (n : ℕ), cs < n →
      s ∈ splitLoop minl cs ss [s] chunks n := by
  intro ss
  cases ss with
  | nil =>
    intro chunks n _
    simp only [splitLoop, joinSp]
    rw [if_pos (by simp), if_pos hmin]
    exact List.mem_append_right _ (List.mem_singleton.2 rfl)
  | cons t rest =>
    intro chunks n hn
    simp only [splitLoop]
    rw [if_pos ⟨lt_of_lt_of_le hn (Nat.le_add_right n t.length), by simp⟩]
    refine splitLoop_mono minl cs rest [t] _ t.length (joinSp [s]) ?_
    rw [if_pos (by simpa [joinSp] using hmin)]
    exact List.mem_append_right _ (List.mem_singleton.2 rfl)

/-- A sentence longer than `chunk_size` in the remaining sentence list ends
up as an element of the loop output whenever its length reaches
`min_length`. -/
theorem splitLoop_long_sentence (minl cs : ℕ) (s : List Char)
    (hlen : cs < s.length) (hmin : minl ≤ s.length) :
    ∀ (ss cur chunks : List (List Char)) (n : ℕ),
      s ∈ ss → s ∈ splitLoop minl cs ss cur chunks n := by
  intro ss
  induction ss with
  | nil =>
    intro _ _ _ h
    simp at h
  | cons t rest ih =>
    intro cur chunks n hmem
    rcases List.mem_cons.1 hmem with he | hmem'
    · subst he
      simp only [splitLoop]
      by_cases hcur : cur = []
      · subst hcur
        rw [if_neg (by simp)]
        simpa using splitLoop_single minl cs s hmin rest chunks (n + s.length)
          (lt_of_lt_of_le hlen (Nat.le_add_left s.length n))
      · rw [if_pos ⟨lt_of_lt_of_le hlen (Nat.le_add_left s.length n), hcur⟩]
        exact splitLoop_single minl cs s hmin rest _ s.length hlen
    · simp only [splitLoop]
      split
      · exact ih _ _ _ hmem'
      · exact ih _ _ _ hmem'

/-- Every chunk the loop emits has length at least `min_length`, provided
the chunks already collected do. -/
theorem splitLoop_ge_min (minl cs : ℕ) :
    ∀ (ss cur chunks : List (List Char)) (n : ℕ),
      (∀ c ∈ chunks, minl ≤ c.length) →
      ∀ c ∈ splitLoop minl cs ss cur chunks n, minl ≤ c.length := by
  intro ss
  induction ss with
  | nil =>
    intro cur chunks n h c hc
    simp only [splitLoop] at hc
    split at hc
    · split at hc
      · rcases List.mem_append.1 hc with h1 | h1
        · exact h c h1
        · rw [List.mem_singleton.1 h1]
          assumption
      · exact h c hc
    · exact h c hc
  | cons s rest ih =>
    intro cur chunks n h c hc
    simp only [splitLoop] at hc
    split at hc
    · refine ih _ _ _ ?_ c hc
      intro d hd
      split at hd
      · rcases List.mem_append.1 hd with h1 | h1
        · exact h d h1
        · rw [List.mem_singleton.1 h1]
          assumption
      · exact h d hd
    · exact ih _ _ _ h c hc

end TextProcessor

/-! ## Claim theorems: text segmentation -/

/-- C1: for every text and every `chunk_size > 0`, every chunk returned by
`TextProcessor.split_text` has character length at least the configured
`min_length`. -/
theorem C1_split_chunks_ge_min_length (min_length : ℕ) (text : List Char)
    (chunk_size overlap : ℕ) (h : 0 < chunk_size) :
    ∀ c ∈ TextProcessor.split_text min_length text chunk_size overlap,
      min_length ≤ c.length := by
  intro c hc
  unfold TextProcessor.split_text at hc
  split at hc
  · simp at hc
  · exact TextProcessor.splitLoop_ge_min min_length chunk_size _ _ _ _ (by simp) c hc

/-- C1 witness: a concrete run with `min_length = 1`, `chunk_size = 3`. -/
theorem C1_witness :
    0 < 3 ∧ ∀ c ∈ TextProcessor.split_text 1 wit1 3 0, 1 ≤ c.length :=
  ⟨by decide, C1_split_chunks_ge_min_length 1 wit1 3 0 (by decide)⟩

/-- C6: a sentence of the cleaned text longer than `chunk_size` appears
verbatim as its own chunk of `split_text` whenever its length is at least
`min_length`, even though it exceeds `chunk_size`. -/
theorem C6_long_sentence_is_own_chunk (min_length : ℕ) (text : List Char)
    (chunk_size overlap : ℕ) (s : List Char)
    (hs : s ∈ TextProcessor.sentSplit (TextProcessor.clean_text text))
    (hlen : chunk_size < s.length) (hmin : min_length ≤ s.length) :
    s ∈ TextProcessor.split_text min_length text chunk_size overlap := by
  unfold TextProcessor.split_text
  split
  · rename_i he
    rw [he] at hs
    have : s = [] := by
      simpa [TextProcessor.clean_text, TextProcessor.sentSplit,
        TextProcessor.sentAux] using hs
    rw [this] at hlen
    exact absurd hlen (Nat.not_lt_zero _)
  · exact TextProcessor.splitLoop_long_sentence min_length chunk_size s hlen hmin
      _ _ _ _ hs

/-- C6 witness: the sentence `abcd.` (length 5) with `chunk_size = 2`. -/
theorem C6_witness :
    sent6 ∈ TextProcessor.sentSplit (TextProcessor.clean_text wit6) ∧
      2 < sent6.length ∧ 1 ≤ sent6.length ∧
      sent6 ∈ TextProcessor.split_text 1 wit6 2 0 :=
  ⟨by decide, by decide, by decide,
    C6_long_sentence_is_own_chunk 1 wit6 2 0 sent6 (by decide) (by decide) (by decide)⟩

/-- C8: `split_text` never reads `overlap`: any two overlap values give
identical output. -/
theorem C8_overlap_unused (min_length : ℕ) (text : List Char)
    (chunk_size o1 o2 : ℕ) :
    TextProcessor.split_text min_length text chunk_size o1 =
      TextProcessor.split_text min_length text chunk_size o2 := rfl

/-! ## Claim theorems: vector store state -/

/-- The key lists of the two dicts coincide on every reachable state. -/
theorem keys_eq_of_reachable {s : VectorStore} (h : Reachable s) :
    dictKeys s.vectors = dictKeys s.metadata := by
  induction h with
  | empty => rfl
  | add t id v m _ ih =>
    show dictKeys (dictSet t.vectors id v) = dictKeys (dictSet t.metadata id _)
    rw [dictKeys_dictSet, dictKeys_dictSet]
    have hany : t.vectors.any (fun p => p.1 = id) =
        t.metadata.any (fun p => p.1 = id) := by
      by_cases hm : id ∈ dictKeys t.metadata
      · rw [(any_fst_iff_mem t.vectors id).2 (ih ▸ hm),
          (any_fst_iff_mem t.metadata id).2 hm]
      · have hv : ¬ t.vectors.any (fun p => p.1 = id) = true := fun hc =>
          hm (ih ▸ (any_fst_iff_mem t.vectors id).1 hc)
        have hm2 : ¬ t.metadata.any (fun p => p.1 = id) = true := fun hc =>
          hm ((any_fst_iff_mem t.metadata id).1 hc)
        simp only [Bool.not_eq_true] at hv hm2
        rw [hv, hm2]
    rw [hany, ih]
  | delete t id _ ih =>
    unfold VectorStore.delete
    split
    · show dictKeys (dictDel t.vectors id) = dictKeys (dictDel t.metadata id)
      rw [dictKeys_dictDel, dictKeys_dictDel, ih]
    · exact ih
  | clear t _ _ => rfl

/-- C4: in any state reachable from the empty index by `add`, `delete` and
`clear`, an id holds a vector exactly when it holds a metadata entry. -/
theorem C4_vectors_metadata_same_ids {s : VectorStore} (h : Reachable s) :
    ∀ id : String, id ∈ dictKeys s.vectors ↔ id ∈ dictKeys s.metadata := by
  intro id
  rw [keys_eq_of_reachable h]

/-- C4 witness: a concrete reachable state (one `add` then one `delete`). -/
theorem C4_witness :
    Reachable ((VectorStore.add ⟨[], []⟩ idA [1] none).delete idB).1 ∧
      ∀ id : String,
        id ∈ dictKeys ((VectorStore.add ⟨[], []⟩ idA [1] none).delete idB).1.vectors ↔
        id ∈ dictKeys ((VectorStore.add ⟨[], []⟩ idA [1] none).delete idB).1.metadata :=
  ⟨Reachable.delete _ idB (Reachable.add _ idA [1] none Reachable.empty),
    C4_vectors_metadata_same_ids
      (Reachable.delete _ idB (Reachable.add _ idA [1] none Reachable.empty))⟩

/-- C7 counterexample: with `idA` already present (value `[1]`), re-adding
`idA` with value `[2]` and deleting it leaves an empty store, not the
original one — the claim fails as stated. -/
theorem C7_counterexample :
    ¬ contentEq ((VectorStore.add s7cex idA [2] none).delete idA).1 s7cex := by
  intro h
  have h1 := h.1 idA
  revert h1
  decide

/-- C7 amended: provided the id is not already present in either dict,
inserting then deleting it restores the previous state exactly (hence also
by content). -/
theorem C7_amended_add_delete_roundtrip (s : VectorStore) (id : String)
    (v : Vec) (m : Option MetaMap)
    (h1 : id ∉ dictKeys s.vectors) (h2 : id ∉ dictKeys s.metadata) :
    ((VectorStore.add s id v m).delete id).1 = s := by
  unfold VectorStore.add VectorStore.delete
  rw [dictSet_of_not_mem v h1, dictSet_of_not_mem (m.getD []) h2]
  rw [if_pos (by simp [List.any_append])]
  show (⟨dictDel (s.vectors ++ [(id, v)]) id,
      dictDel (s.metadata ++ [(id, m.getD [])]) id⟩ : VectorStore) = s
  rw [dictDel_append_singleton v h1, dictDel_append_singleton (m.getD []) h2]

/-- C7 witness: a fresh id on a store holding one other record. -/
theorem C7_witness :
    idA ∉ dictKeys s7wit.vectors ∧ idA ∉ dictKeys s7wit.metadata ∧
      ((VectorStore.add s7wit idA [3] none).delete idA).1 = s7wit :=
  ⟨by decide, by decide,
    C7_amended_add_delete_roundtrip s7wit idA [3] none (by decide) (by decide)⟩

/-- C10: `search` and `get`, read as state transformers over the method
bodies (which only read `self.vectors` / `self.metadata`), leave the state
unchanged. -/
theorem C10_search_get_leave_state_unchanged (sim : Vec → Vec → ℚ)
    (s : VectorStore) (q : Vec) (top_k : ℕ) (id : String) :
    (VectorStore.searchM sim s q top_k).1 = s ∧ (VectorStore.getM s id).1 = s :=
  ⟨rfl, rfl⟩

/-! ## Claim theorem: configuration -/

/-- C9: evaluated at the repository's own usage (`vector_store.py` asks for
`vector_db.collection_name` against a nested configuration), the flat
`config.get(key, default)` of `config.py` returns the default, while the
dotted resolution the spec describes finds the nested value. -/
theorem C9_flat_get_misses_dotted_key :
    Config.get cfg9 dottedKey none = none ∧
      Config.specGet cfg9 dottedKey none = some (YamlVal.s collectionVal) :=
  ⟨rfl, rfl⟩

/-! ## Claim theorems: similarity search ordering -/

/-- Stability of `orderedInsert` under `simGE`: the records carrying any
fixed similarity value keep their relative order. -/
theorem filter_orderedInsert_sim (c : ℚ) (x : String × ℚ) :
    ∀ l : List (String × ℚ),
      (List.orderedInsert simGE x l).filter (fun p => p.2 = c) =
        if x.2 = c then x :: l.filter (fun p => p.2 = c)
        else l.filter (fun p => p.2 = c) := by
  intro l
  induction l with
  | nil =>
    by_cases hx : x.2 = c <;> simp [List.orderedInsert, hx]
  | cons y l ih =>
    rw [List.orderedInsert]
    by_cases hxy : simGE x y
    · rw [if_pos hxy]
      by_cases hx : x.2 = c <;> by_cases hy : y.2 = c <;>
        simp [List.filter_cons, hx, hy]
    · rw [if_neg hxy]
      by_cases hx : x.2 = c
      · have hy : ¬ y.2 = c := fun hc => hxy (le_of_eq (hc.trans hx.symm))
        simp [List.filter_cons, hx, hy, ih]
      · by_cases hy : y.2 = c <;> simp [List.filter_cons, hx, hy, ih]

/-- Stability of the descending insertion sort: filtering for one
similarity value commutes with sorting. -/
theorem filter_insertionSort_sim (c : ℚ) :
    ∀ l : List (String × ℚ),
      (List.insertionSort simGE l).filter (fun p => p.2 = c) =
        l.filter (fun p => p.2 = c) := by
  intro l
  induction l with
  | nil => rfl
  | cons x l ih =>
    rw [List.insertionSort, filter_orderedInsert_sim, ih]
    by_cases hx : x.2 = c <;> simp [List.filter_cons, hx]

/-- C2: `search` returns results sorted by similarity in descending order,
and the records carrying any one similarity value appear in the order in
which their ids sit in the index (the filtered result list is a prefix of
the correspondingly filtered score list, which lists ids in insertion
order) — the deterministic tie-breaking of a stable sort. -/
theorem C2_search_sorted_stable (sim : Vec → Vec → ℚ) (s : VectorStore)
    (q : Vec) (top_k : ℕ) :
    List.Sorted (· ≥ ·)
      ((VectorStore.search sim s q top_k).map SearchResult.similarity) ∧
    ∀ c : ℚ,
      ((VectorStore.search sim s q top_k).filter
          (fun r => r.similarity = c)).map SearchResult.id <+:
        ((scored sim s q).filter (fun p => p.2 = c)).map (fun p => p.1) := by
  unfold VectorStore.search
  by_cases hv : s.vectors = []
  · rw [if_pos hv]
    exact ⟨List.sorted_nil, fun c => List.nil_prefix⟩
  · rw [if_neg hv]
    constructor
    · rw [List.map_map]
      have htake : List.Pairwise simGE
          ((List.insertionSort simGE (scored sim s q)).take top_k) :=
        List.Pairwise.sublist (List.take_sublist _ _)
          (List.sorted_insertionSort simGE (scored sim s q))
      exact List.Pairwise.map _ (fun a b h => h) htake
    · intro c
      rw [List.filter_map, List.map_map]
      show (List.map (fun p : String × ℚ => p.1)
          (List.filter (fun p : String × ℚ => decide (p.2 = c))
            ((List.insertionSort simGE (scored sim s q)).take top_k))) <+:
        (List.map (fun p : String × ℚ => p.1)
          (List.filter (fun p : String × ℚ => decide (p.2 = c)) (scored sim s q)))
      have h1 : ((List.insertionSort simGE (scored sim s q)).take top_k).filter
            (fun p => p.2 = c) <+:
          (List.insertionSort simGE (scored sim s q)).filter (fun p => p.2 = c) :=
        ⟨((List.insertionSort simGE (scored sim s q)).drop top_k).filter
            (fun p => p.2 = c),
          by rw [← List.filter_append, List.take_append_drop]⟩
      rw [filter_insertionSort_sim] at h1
      rcases h1 with ⟨t, ht⟩
      exact ⟨t.map (fun p => p.1), by rw [← List.map_append, ht]⟩

/-- C3: with `top_k` greater than the number of stored records, `search`
returns exactly one result per stored record (the returned ids are a
permutation of the stored ids), sorted by descending similarity. -/
theorem C3_search_topk_all (sim : Vec → Vec → ℚ) (s : VectorStore) (q : Vec)
    (top_k : ℕ) (h : s.vectors.length < top_k) :
    (VectorStore.search sim s q top_k).length = s.vectors.length ∧
    ((VectorStore.search sim s q top_k).map SearchResult.id).Perm
      (dictKeys s.vectors) ∧
    List.Sorted (· ≥ ·)
      ((VectorStore.search sim s q top_k).map SearchResult.similarity) := by
  unfold VectorStore.search
  by_cases hv : s.vectors = []
  · rw [if_pos hv]
    simp [hv, dictKeys]
  · rw [if_neg hv]
    have hlen : (List.insertionSort simGE (scored sim s q)).length ≤ top_k := by
      rw [List.length_insertionSort]
      unfold scored
      rw [List.length_map]
      exact le_of_lt h
    rw [List.take_of_length_le hlen]
    refine ⟨?_, ?_, ?_⟩
    · rw [List.length_map, List.length_insertionSort]
      unfold scored
      rw [List.length_map]
    · rw [List.map_map]
      have hperm := (List.perm_insertionSort simGE (scored sim s q)).map
        (fun p : String × ℚ => p.1)
      have hmap : (scored sim s q).map (fun p => p.1) = dictKeys s.vectors := by
        unfold scored dictKeys
        rw [List.map_map]
        rfl
      rw [hmap] at hperm
      exact hperm
    · rw [List.map_map]
      exact List.Pairwise.map _ (fun a b hab => hab)
        (List.sorted_insertionSort simGE (scored sim s q))

/-- C3 witness: a two-record store queried with `top_k = 5`. -/
theorem C3_witness :
    s3wit.vectors.length < 5 ∧
      ((VectorStore.search simWit s3wit [] 5).length = s3wit.vectors.length ∧
        ((VectorStore.search simWit s3wit [] 5).map SearchResult.id).Perm
          (dictKeys s3wit.vectors) ∧
        List.Sorted (· ≥ ·)
          ((VectorStore.search simWit s3wit [] 5).map SearchResult.similarity)) :=
  ⟨by decide, C3_search_topk_all simWit s3wit [] 5 (by decide)⟩

/-! ## clean_text lemmas -/

/-- Every whitespace character of the list is a plain space. -/
def wsOnlySpace (l : List Char) : Prop :=
  ∀ c ∈ l, pyIsSpace c = true → c = ' '

/-- No two adjacent characters are both whitespace. -/
def noTwoSpaces (l : List Char) : Prop :=
  l.Chain' (fun a b => ¬(pyIsSpace a = true ∧ pyIsSpace b = true))

/-- Every character of the list survives the allow-list filter. -/
def allAllowed (l : List Char) : Prop :=
  ∀ c ∈ l, allowedChar c = true

/-- Induction following the two-character lookahead of `collapseWs`. -/
theorem twoStep {P : List Char → Prop} (h0 : P []) (h1 : ∀ c, P [c])
    (h2 : ∀ c d cs, P (d :: cs) → P (c :: d :: cs)) : ∀ l, P l := by
  intro l
  induction l with
  | nil => exact h0
  | cons c t ih =>
    cases t with
    | nil => exact h1 c
    | cons d cs => exact h2 c d cs ih

theorem head_collapseWs_nonspace {d : Char} (cs : List Char)
    (h : pyIsSpace d = false) : (collapseWs (d :: cs)).head? = some d := by
  cases cs with
  | nil => simp [collapseWs, h]
  | cons e t => simp [collapseWs, h]

theorem wsOnlySpace_collapseWs : ∀ l, wsOnlySpace (collapseWs l) := by
  refine twoStep ?_ ?_ ?_
  · intro c hc
    simp [collapseWs] at hc
  · intro c x hx
    by_cases h : pyIsSpace c <;> simp [collapseWs, h] at hx <;> subst hx
    · intro _
      rfl
    · intro hcon
      exact absurd hcon h
  · intro c d cs ih x hx
    by_cases hc : pyIsSpace c
    · by_cases hd : pyIsSpace d
      · rw [show collapseWs (c :: d :: cs) = collapseWs (d :: cs) by
          simp [collapseWs, hc, hd]] at hx
        exact ih x hx
      · rw [show collapseWs (c :: d :: cs) = ' ' :: collapseWs (d :: cs) by
          simp [collapseWs, hc, hd]] at hx
        rcases List.mem_cons.1 hx with he | hm
        · intro _
          exact he
        · exact ih x hm
    · rw [show collapseWs (c :: d :: cs) = c :: collapseWs (d :: cs) by
        simp [collapseWs, hc]] at hx
      rcases List.mem_cons.1 hx with he | hm
      · intro hsp
        rw [he] at hsp
        rw [hsp] at hc
        cases hc rfl
      · exact ih x hm

theorem mem_collapseWs : ∀ l, ∀ c ∈ collapseWs l, c = ' ' ∨ c ∈ l := by
  refine twoStep ?_ ?_ ?_
  · intro c hc
    simp [collapseWs] at hc
  · intro c x hx
    by_cases h : pyIsSpace c <;> simp [collapseWs, h] at hx
    · exact Or.inl hx
    · exact Or.inr (by simp [hx])
  · intro c d cs ih x hx
    by_cases hc : pyIsSpace c
    · by_cases hd : pyIsSpace d
      · rw [show collapseWs (c :: d :: cs) = collapseWs (d :: cs) by
          simp [collapseWs, hc, hd]] at hx
        rcases ih x hx with h1 | h1
        · exact Or.inl h1
        · exact Or.inr (List.mem_cons_of_mem c h1)
      · rw [show collapseWs (c :: d :: cs) = ' ' :: collapseWs (d :: cs) by
          simp [collapseWs, hc, hd]] at hx
        rcases List.mem_cons.1 hx with he | hm
        · exact Or.inl he
        · rcases ih x hm with h1 | h1
          · exact Or.inl h1
          · exact Or.inr (List.mem_cons_of_mem c h1)
    · rw [show collapseWs (c :: d :: cs) = c :: collapseWs (d :: cs) by
        simp [collapseWs, hc]] at hx
      rcases List.mem_cons.1 hx with he | hm
      · exact Or.inr (by simp [he])
      · rcases ih x hm with h1 | h1
        · exact Or.inl h1
        · exact Or.inr (List.mem_cons_of_mem c h1)

theorem noTwoSpaces_collapseWs : ∀ l, noTwoSpaces (collapseWs l) := by
  refine twoStep ?_ ?_ ?_
  · exact List.chain'_nil
  · intro c
    by_cases h : pyIsSpace c <;> simp [noTwoSpaces, collapseWs, h]
  · intro c d cs ih
    by_cases hc : pyIsSpace c
    · by_cases hd : pyIsSpace d
      · rw [show collapseWs (c :: d :: cs) = collapseWs (d :: cs) by
          simp [collapseWs, hc, hd]]
        exact ih
      · rw [show collapseWs (c :: d :: cs) = ' ' :: collapseWs (d :: cs) by
          simp [collapseWs, hc, hd]]
        refine List.chain'_cons'.2 ⟨?_, ih⟩
        intro y hy
        rw [head_collapseWs_nonspace cs (Bool.eq_false_iff.2 hd)] at hy
        cases hy
        intro hcon
        exact hd hcon.2
    · rw [show collapseWs (c :: d :: cs) = c :: collapseWs (d :: cs) by
        simp [collapseWs, hc]]
      refine List.chain'_cons'.2 ⟨?_, ih⟩
      intro y _ hcon
      exact hc hcon.1

theorem collapseWs_eq_self : ∀ l, wsOnlySpace l → noTwoSpaces l → collapseWs l = l := by
  refine twoStep ?_ ?_ ?_
  · intro _ _
    rfl
  · intro c hws _
    by_cases h : pyIsSpace c
    · rw [show collapseWs [c] = [' '] by simp [collapseWs, h],
        hws c (by simp) h]
    · simp [collapseWs, h]
  · intro c d cs ih hws hnt
    have hrel := (List.chain'_cons.1 hnt).1
    have htail : noTwoSpaces (d :: cs) := (List.chain'_cons.1 hnt).2
    have hwst : wsOnlySpace (d :: cs) := fun x hx => hws x (List.mem_cons_of_mem c hx)
    by_cases hc : pyIsSpace c
    · have hd : pyIsSpace d = false := by
        by_cases hd1 : pyIsSpace d
        · exact absurd ⟨hc, hd1⟩ hrel
        · simpa using hd1
      rw [show collapseWs (c :: d :: cs) = ' ' :: collapseWs (d :: cs) by
        simp [collapseWs, hc, hd], ih hwst htail, hws c (by simp) hc]
    · rw [show collapseWs (c :: d :: cs) = c :: collapseWs (d :: cs) by
        simp [collapseWs, hc], ih hwst htail]

theorem dropWhile_head_nonspace :
    ∀ (l : List Char) (c : Char), (l.dropWhile pyIsSpace).head? = some c →
      pyIsSpace c = false := by
  intro l
  induction l with
  | nil => intro c h; cases h
  | cons a t ih =>
    intro c h
    rw [List.dropWhile_cons] at h
    by_cases ha : pyIsSpace a
    · rw [if_pos ha] at h
      exact ih c h
    · rw [if_neg ha] at h
      cases h
      exact Bool.eq_false_iff.2 ha

theorem dropWhile_eq_self_of_head (l : List Char)
    (h : ∀ c, l.head? = some c → pyIsSpace c = false) :
    l.dropWhile pyIsSpace = l := by
  cases l with
  | nil => rfl
  | cons a t =>
    rw [List.dropWhile_cons, if_neg]
    rw [h a rfl]
    simp

theorem chain'_dropWhile {r : Char → Char → Prop} {p : Char → Bool} :
    ∀ l : List Char, l.Chain' r → (l.dropWhile p).Chain' r := by
  intro l
  induction l with
  | nil => intro h; exact h
  | cons a t ih =>
    intro h
    rw [List.dropWhile_cons]
    by_cases ha : p a
    · rw [if_pos ha]
      exact ih (List.Chain'.tail h)
    · rw [if_neg ha]
      exact h

theorem chain'_reverse_of {r : Char → Char → Prop}
    (hsym : ∀ a b, r a b → r b a) :
    ∀ l : List Char, l.Chain' r → l.reverse.Chain' r := by
  intro l h
  rw [List.chain'_reverse]
  exact List.Chain'.imp (fun a b hab => hsym a b hab) h

theorem noTwoSpaces_stripChars (l : List Char) (h : noTwoSpaces l) :
    noTwoSpaces (stripChars l) := by
  unfold stripChars
  have hsym : ∀ a b : Char, (¬(pyIsSpace a = true ∧ pyIsSpace b = true)) →
      ¬(pyIsSpace b = true ∧ pyIsSpace a = true) :=
    fun a b hab hc => hab ⟨hc.2, hc.1⟩
  exact chain'_reverse_of hsym _
    (chain'_dropWhile _ (chain'_reverse_of hsym _ (chain'_dropWhile _ h)))

theorem mem_stripChars {l : List Char} {c : Char} (h : c ∈ stripChars l) : c ∈ l := by
  unfold stripChars at h
  rw [List.mem_reverse] at h
  have h1 := (List.dropWhile_sublist (l := (l.dropWhile pyIsSpace).reverse)
    pyIsSpace).subset h
  rw [List.mem_reverse] at h1
  exact (List.dropWhile_sublist pyIsSpace).subset h1

theorem wsOnlySpace_stripChars (l : List Char) (h : wsOnlySpace l) :
    wsOnlySpace (stripChars l) :=
  fun c hc => h c (mem_stripChars hc)

theorem allAllowed_stripChars (l : List Char) (h : allAllowed l) :
    allAllowed (stripChars l) :=
  fun c hc => h c (mem_stripChars hc)

theorem getLast?_dropWhile (p : Char → Bool) :
    ∀ l : List Char, l.dropWhile p ≠ [] → (l.dropWhile p).getLast? = l.getLast? := by
  intro l
  induction l with
  | nil => intro h; cases h rfl
  | cons a t ih =>
    intro h
    rw [List.dropWhile_cons]
    by_cases ha : p a
    · rw [List.dropWhile_cons, if_pos ha] at h
      rw [if_pos ha, ih h]
      cases t with
      | nil => cases h rfl
      | cons b t2 => rw [List.getLast?_cons_cons]
    · rw [if_neg ha]

theorem stripChars_head_nonspace (l : List Char) :
    ∀ c, (stripChars l).head? = some c → pyIsSpace c = false := by
  intro c h
  unfold stripChars at h
  rw [List.head?_reverse] at h
  have hne : (l.dropWhile pyIsSpace).reverse.dropWhile pyIsSpace ≠ [] := by
    intro he
    rw [he] at h
    cases h
  rw [getLast?_dropWhile pyIsSpace _ hne, List.getLast?_reverse] at h
  exact dropWhile_head_nonspace l c h

theorem stripChars_last_nonspace (l : List Char) :
    ∀ c, (stripChars l).getLast? = some c → pyIsSpace c = false := by
  intro c h
  unfold stripChars at h
  rw [List.getLast?_reverse] at h
  exact dropWhile_head_nonspace _ c h

theorem stripChars_eq_self (l : List Char)
    (h1 : ∀ c, l.head? = some c → pyIsSpace c = false)
    (h2 : ∀ c, l.getLast? = some c → pyIsSpace c = false) :
    stripChars l = l := by
  unfold stripChars
  rw [dropWhile_eq_self_of_head l h1]
  rw [dropWhile_eq_self_of_head l.reverse (fun c hc =>
    h2 c (by rwa [List.head?_reverse] at hc))]
  exact List.reverse_reverse l

theorem stripChars_idem (l : List Char) :
    stripChars (stripChars l) = stripChars l :=
  stripChars_eq_self _ (stripChars_head_nonspace l) (stripChars_last_nonspace l)

theorem allowedChar_space : allowedChar ' ' = true := rfl

theorem allAllowed_clean (text : List Char) :
    allAllowed (TextProcessor.clean_text text) := by
  unfold TextProcessor.clean_text
  split
  · intro c hc
    cases hc
  · intro c hc
    exact (List.mem_filter.1 (mem_stripChars hc)).2

theorem filter_allowed_collapseWs {y : List Char} (h : allAllowed y) :
    List.filter allowedChar (collapseWs y) = collapseWs y := by
  rw [List.filter_eq_self]
  intro c hc
  rcases mem_collapseWs y c hc with he | hm
  · rw [he]
    exact allowedChar_space
  · exact h c hm

theorem clean_of_allAllowed {y : List Char} (h : allAllowed y) :
    TextProcessor.clean_text y = stripChars (collapseWs y) := by
  unfold TextProcessor.clean_text
  split
  · rename_i he
    rw [he]
    rfl
  · rw [filter_allowed_collapseWs h]

theorem allAllowed_strip_collapse {y : List Char} (h : allAllowed y) :
    allAllowed (stripChars (collapseWs y)) := by
  refine allAllowed_stripChars _ ?_
  intro c hc
  rcases mem_collapseWs y c hc with he | hm
  · rw [he]
    exact allowedChar_space
  · exact h c hm

/-- The normal form reached after one cleaning of an allow-listed text is a
fixed point of `clean_text`. -/
theorem clean_fixpoint {y : List Char} (h : allAllowed y) :
    TextProcessor.clean_text (stripChars (collapseWs y)) =
      stripChars (collapseWs y) := by
  have hall : allAllowed (stripChars (collapseWs y)) := allAllowed_strip_collapse h
  rw [clean_of_allAllowed hall]
  rw [collapseWs_eq_self _
    (wsOnlySpace_stripChars _ (wsOnlySpace_collapseWs y))
    (noTwoSpaces_stripChars _ (noTwoSpaces_collapseWs y))]
  exact stripChars_idem _

/-- C5 counterexample: on `"a @ b"` the first cleaning removes the `@` and
leaves two adjacent spaces (`"a  b"`), which the second cleaning collapses
to `"a b"` — `clean` is not idempotent. -/
theorem C5_counterexample :
    TextProcessor.clean_text (TextProcessor.clean_text cex5) ≠
      TextProcessor.clean_text cex5 := by decide

/-- C5 amended: cleaning is idempotent from the second application on —
for every text, `clean(clean(clean(text))) = clean(clean(text))`; the
unamended `clean(clean(text)) = clean(text)` fails because removing a
disallowed character can leave two adjacent spaces that only the next
cleaning collapses. -/
theorem C5_amended_clean_clean_idempotent (text : List Char) :
    TextProcessor.clean_text (TextProcessor.clean_text
        (TextProcessor.clean_text text)) =
      TextProcessor.clean_text (TextProcessor.clean_text text) := by
  have h := allAllowed_clean text
  rw [clean_of_allAllowed h]
  exact clean_fixpoint h
